import Mathlib

/-!
Verification of the competitive-programming template
`src/content/contest/template.cpp`: the ordered-statistics set alias,
the `gcd` and `lcm` helpers, the `randInt` helper, the `debug` macro and
`main`.  The file uses `#define int long long`, so `int` in the C++ source
is a 64-bit signed integer; arithmetic is modelled exactly on `Int`, with
C++ `%` and `/` on signed values rendered as truncated remainder
`Int.tmod` and truncated division `Int.tdiv`.
-/

namespace Template

/-- Modelled from the spec: the policy tree behind the `ordered_set` alias
(`tree<T, null_type, less<T>, rb_tree_tag, tree_order_statistics_node_update>`,
lines 31-38) is library code that is not part of this repository; per the
spec it is a set with unique keys whose in-order traversal is sorted.  The
container state is modelled as the strictly sorted list of stored keys, and
`osInsert` inserts a key keeping the list sorted and duplicate-free (an
insert of a key already present is a no-op, as for any set keyed by
`less<T>`). -/
def osInsert (x : Int) : List Int → List Int
  | [] => [x]
  | y :: ys =>
    if x < y then x :: y :: ys
    else if y < x then y :: osInsert x ys
    else y :: ys

/-- The set obtained by inserting the elements of `es`, in order, into an
initially empty `ordered_set`. -/
def buildSet (es : List Int) : List Int :=
  es.foldl (fun s e => osInsert e s) []

/-- Modelled from the spec: `order_of_key(k)` returns the number of elements
of the set strictly less than `k` (line 28 of the source comment). -/
def order_of_key (s : List Int) (x : Int) : Nat :=
  (s.filter (fun e => e < x)).length

/-- Modelled from the spec: `find_by_order(k)` returns an iterator to the
`k`-th element, 0-based (line 29 of the source comment); `none` models the
end iterator returned when `k` is out of range. -/
def find_by_order (s : List Int) (k : Nat) : Option Int :=
  s[k]?

/-- The number of elements of the inserted sequence `es`, duplicates
counted, that are strictly below `x`: the literal reading of "the number of
inserted elements strictly less than `ei`". -/
def countInsertedLt (es : List Int) (x : Int) : Nat :=
  (es.filter (fun e => e < x)).length

/-- The number of distinct inserted values strictly below `x`. -/
def countDistinctLt (es : List Int) (x : Int) : Nat :=
  (es.dedup.filter (fun e => e < x)).length

/-- Embedding of line 93, `int gcd(int a, int b) { return b == 0 ? a : gcd(b, a % b); }`,
with C++ `%` on signed integers rendered as the truncated remainder
`Int.tmod`. -/
def gcd (a b : Int) : Int :=
  if h : b = 0 then a else gcd b (Int.tmod a b)
termination_by b.natAbs
decreasing_by
  have habs : (Int.tmod a b).natAbs = a.natAbs % b.natAbs := by
    cases a with
    | ofNat m =>
      cases b with
      | ofNat n => rfl
      | negSucc n => rfl
    | negSucc m =>
      cases b with
      | ofNat n =>
        show (-(Int.ofNat (m.succ % n))).natAbs = _
        rw [Int.natAbs_neg]
        rfl
      | negSucc n =>
        show (-(Int.ofNat (m.succ % n.succ))).natAbs = _
        rw [Int.natAbs_neg]
        rfl
  rw [habs]
  exact Nat.mod_lt _ (Int.natAbs_pos.mpr h)

/-- Embedding of line 94, `int lcm(int a, int b) { return (a / gcd(a, b)) * b; }`,
with C++ `/` on signed integers rendered as the truncated division
`Int.tdiv`. -/
def lcm (a b : Int) : Int :=
  (Int.tdiv a (gcd a b)) * b

/-- Fuel-instrumented form of the `gcd` recursion: `none` when the fuel runs
out before the recursion reaches its base case. -/
def gcdFuel : Nat → Int → Int → Option Int
  | 0, _, _ => none
  | n + 1, a, b => if b = 0 then some a else gcdFuel n b (Int.tmod a b)

/-- Modelled from the spec: `randInt(l, r)` (lines 83-85) draws uniformly
from the inclusive range `[l, r]`; the raw `mt19937` output fed into
`uniform_int_distribution<int>(l, r)` is abstracted as an arbitrary natural
draw `u`, reduced onto the `r - l + 1` values of the range. -/
def randInt (u : Nat) (l r : Int) : Int :=
  l + ((u % (r - l + 1).toNat : Nat) : Int)

/-- The `debug(x)` macro (lines 41-45): when `ONLINE_JUDGE` is defined it
expands to nothing; otherwise it appends `#x`, `" = "` and the `_print`
rendering of `x` as a line on the standard error stream, modelled as a list
of lines. -/
def debugExpand (onlineJudge : Bool) (label rendered : String)
    (stderrLines : List String) : List String :=
  if onlineJudge then stderrLines
  else stderrLines ++ [label ++ " = " ++ rendered]

/-- Lines 97-99, `void solve() { // Your logic goes here }`: the stub writes
nothing to standard output. -/
def solveOutput : List String := []

/-- Line 115, `while (t--) solve();`: the loop tests the truthiness of `t`
and then decrements it.  `loopRun fuel t` counts how many times the body
runs, with `none` when `fuel` iterations are not enough (the loop never
reaches `t = 0` for negative `t`). -/
def loopRun : Nat → Int → Option Nat
  | 0, _ => none
  | fuel + 1, t => if t = 0 then some 0 else (loopRun fuel (t - 1)).map (fun n => n + 1)

/-- Observable outcome of one run of the program. -/
structure MainResult where
  exitStatus : Int
  stdout : List String
  solveCalls : Nat
  redirectedStreams : List String

/-- Embedding of `int32_t main()` (lines 102-118): stream buffering is
configured, a non-judge build redirects the three standard streams to
files, `t` is set to the literal 1 (the `cin >> t` line 114 is commented
out), `while (t--) solve();` runs, and `main` returns 0 on its only return
path.  `judge` is the `ONLINE_JUDGE` flag; the result is `none` only if the
loop fuel were exhausted. -/
def mainRun (judge : Bool) : Option MainResult :=
  let t : Int := 1
  (loopRun 2 t).map (fun calls =>
    { exitStatus := 0
      stdout := List.flatten (List.replicate calls solveOutput)
      solveCalls := calls
      redirectedStreams :=
        if judge then [] else ["input.txt", "output.txt", "debug.txt"] })

theorem mem_osInsert (a x : Int) : ∀ l : List Int, a ∈ osInsert x l ↔ a = x ∨ a ∈ l
  | [] => by simp [osInsert]
  | y :: ys => by
    by_cases h1 : x < y
    · simp only [osInsert, if_pos h1, List.mem_cons]
    · by_cases h2 : y < x
      · have ih := mem_osInsert a x ys
        simp only [osInsert, if_neg h1, if_pos h2, List.mem_cons, ih]
        tauto
      · have hxy : x = y := le_antisymm (not_lt.mp h2) (not_lt.mp h1)
        subst hxy
        simp only [osInsert, if_neg h1, if_neg h2, List.mem_cons]
        tauto

theorem sorted_osInsert (x : Int) : ∀ l : List Int,
    List.Sorted (· < ·) l → List.Sorted (· < ·) (osInsert x l)
  | [], _ => by simp [osInsert]
  | y :: ys, hs => by
    rw [List.sorted_cons] at hs
    by_cases h1 : x < y
    · simp only [osInsert, if_pos h1]
      rw [List.sorted_cons, List.sorted_cons]
      refine ⟨?_, hs⟩
      intro b hb
      rcases List.mem_cons.mp hb with rfl | hb2
      · exact h1
      · exact lt_trans h1 (hs.1 b hb2)
    · by_cases h2 : y < x
      · simp only [osInsert, if_neg h1, if_pos h2]
        rw [List.sorted_cons]
        constructor
        · intro b hb
          rcases (mem_osInsert b x ys).mp hb with rfl | hb2
          · exact h2
          · exact hs.1 b hb2
        · exact sorted_osInsert x ys hs.2
      · simp only [osInsert, if_neg h1, if_neg h2]
        rw [List.sorted_cons]
        exact hs

theorem sorted_foldl (es : List Int) : ∀ s : List Int, List.Sorted (· < ·) s →
    List.Sorted (· < ·) (es.foldl (fun t e => osInsert e t) s) := by
  induction es with
  | nil => intro s hs; simpa using hs
  | cons e es ih => intro s hs; exact ih _ (sorted_osInsert e s hs)

theorem sorted_buildSet (es : List Int) : List.Sorted (· < ·) (buildSet es) :=
  sorted_foldl es [] (by simp)

theorem mem_foldl (a : Int) (es : List Int) : ∀ s : List Int,
    (a ∈ es.foldl (fun t e => osInsert e t) s ↔ a ∈ es ∨ a ∈ s) := by
  induction es with
  | nil => intro s; simp
  | cons e es ih =>
    intro s
    rw [List.foldl_cons, ih, mem_osInsert]
    simp only [List.mem_cons]
    tauto

theorem mem_buildSet (a : Int) (es : List Int) : a ∈ buildSet es ↔ a ∈ es := by
  rw [buildSet, mem_foldl]
  simp

theorem buildSet_perm_dedup (es : List Int) : (buildSet es).Perm es.dedup := by
  refine (List.perm_ext_iff_of_nodup ?_ (List.nodup_dedup es)).mpr ?_
  · exact (sorted_buildSet es).nodup
  · intro a
    rw [mem_buildSet, List.mem_dedup]

theorem order_of_key_buildSet (es : List Int) (x : Int) :
    order_of_key (buildSet es) x = countDistinctLt es x := by
  unfold order_of_key countDistinctLt
  exact ((buildSet_perm_dedup es).filter _).length_eq

theorem filter_lt_head_nil (y : Int) (ys : List Int) (h : ∀ b ∈ ys, y < b) :
    (y :: ys).filter (fun v => v < y) = [] := by
  rw [List.filter_eq_nil_iff]
  intro b hb
  rcases List.mem_cons.mp hb with rfl | hb2
  · simp
  · simpa using not_lt.mpr (le_of_lt (h b hb2))

theorem sorted_getElem_filter_lt : ∀ s : List Int, List.Sorted (· < ·) s → ∀ e ∈ s,
    s[(s.filter (fun v => v < e)).length]? = some e
  | [], _, e, he => absurd he (List.not_mem_nil e)
  | y :: ys, hs, e, he => by
    rw [List.sorted_cons] at hs
    rcases List.mem_cons.mp he with hey | hin
    · rw [hey, filter_lt_head_nil y ys hs.1]
      simp
    · have hy : y < e := hs.1 e hin
      have hcons : (y :: ys).filter (fun v => v < e) = y :: ys.filter (fun v => v < e) := by
        rw [List.filter_cons_of_pos]
        simpa using hy
      rw [hcons, List.length_cons, List.getElem?_cons_succ]
      exact sorted_getElem_filter_lt ys hs.2 e hin

theorem sorted_filter_lt_getElem : ∀ s : List Int, List.Sorted (· < ·) s →
    ∀ k : Nat, k < s.length →
    ∃ v, s[k]? = some v ∧ v ∈ s ∧ (s.filter (fun w => w < v)).length = k
  | [], _, k, hk => absurd hk (by simp)
  | y :: ys, hs, k, hk => by
    rw [List.sorted_cons] at hs
    cases k with
    | zero =>
      refine ⟨y, by simp, List.mem_cons_self y ys, ?_⟩
      rw [filter_lt_head_nil y ys hs.1]
      rfl
    | succ k =>
      have hk2 : k < ys.length := by simpa using hk
      obtain ⟨v, hv1, hv2, hv3⟩ := sorted_filter_lt_getElem ys hs.2 k hk2
      have hy : y < v := hs.1 v hv2
      have hcons : (y :: ys).filter (fun w => w < v) = y :: ys.filter (fun w => w < v) := by
        rw [List.filter_cons_of_pos]
        simpa using hy
      refine ⟨v, ?_, List.mem_cons_of_mem y hv2, ?_⟩
      · rw [List.getElem?_cons_succ]
        exact hv1
      · rw [hcons, List.length_cons, hv3]

/-- C1 as literally stated fails when the inserted sequence contains
duplicates: inserting 5, 5, 7 and querying `order_of_key 7` yields 1 (the
set keeps a single copy of 5), not the 2 sequence elements less than 7. -/
theorem C1_counterexample :
    ¬ order_of_key (buildSet [5, 5, 7]) 7 = countInsertedLt [5, 5, 7] 7 := by
  decide

/-- C1 (amended): after inserting a sequence `e1..en` into an `ordered_set`,
querying `order_of_key ei` for any inserted element `ei` returns the number
of distinct inserted values strictly less than `ei`. -/
theorem C1_order_of_key_rank (es : List Int) (e : Int) (he : e ∈ es) :
    order_of_key (buildSet es) e = countDistinctLt es e := by
  clear he
  exact order_of_key_buildSet es e

theorem C1_order_of_key_rank_witness :
    order_of_key (buildSet [5, 5, 7]) 7 = countDistinctLt [5, 5, 7] 7 :=
  C1_order_of_key_rank [5, 5, 7] 7 (by decide)

/-- C2: for any valid index `k`, `find_by_order k` returns the `(k+1)`-th
smallest distinct inserted value (the unique present value with exactly `k`
distinct inserted values below it), and for any present element `e`,
`find_by_order (order_of_key e)` returns `e`: the two queries are mutually
inverse on present elements. -/
theorem C2_find_by_order_spec (es : List Int) (k : Nat) (e : Int)
    (hk : k < (buildSet es).length) (he : e ∈ es) :
    (∃ v, find_by_order (buildSet es) k = some v ∧ v ∈ es ∧ countDistinctLt es v = k)
    ∧ find_by_order (buildSet es) (order_of_key (buildSet es) e) = some e := by
  constructor
  · obtain ⟨v, hv1, hv2, hv3⟩ :=
      sorted_filter_lt_getElem (buildSet es) (sorted_buildSet es) k hk
    refine ⟨v, hv1, (mem_buildSet v es).mp hv2, ?_⟩
    rw [← order_of_key_buildSet]
    exact hv3
  · exact sorted_getElem_filter_lt (buildSet es) (sorted_buildSet es) e
      ((mem_buildSet e es).mpr he)

theorem C2_find_by_order_spec_witness :
    ((∃ v, find_by_order (buildSet [3, 1, 2]) 1 = some v ∧ v ∈ [3, 1, 2]
        ∧ countDistinctLt [3, 1, 2] v = 1)
      ∧ find_by_order (buildSet [3, 1, 2])
          (order_of_key (buildSet [3, 1, 2]) 2) = some 2) :=
  C2_find_by_order_spec [3, 1, 2] 1 2 (by decide) (by decide)

theorem natAbs_tmod (a b : Int) : (Int.tmod a b).natAbs = a.natAbs % b.natAbs := by
  cases a with
  | ofNat m =>
    cases b with
    | ofNat n => rfl
    | negSucc n => rfl
  | negSucc m =>
    cases b with
    | ofNat n =>
      show (-(Int.ofNat (m.succ % n))).natAbs = _
      rw [Int.natAbs_neg]
      rfl
    | negSucc n =>
      show (-(Int.ofNat (m.succ % n.succ))).natAbs = _
      rw [Int.natAbs_neg]
      rfl

theorem natAbs_tmod_lt (a b : Int) (h : b ≠ 0) : (Int.tmod a b).natAbs < b.natAbs := by
  rw [natAbs_tmod]
  exact Nat.mod_lt _ (Int.natAbs_pos.mpr h)

theorem gcd_eq_natGcd (a b : Int) (ha : 0 ≤ a) (hb : 0 ≤ b) :
    gcd a b = ((Nat.gcd b.natAbs a.natAbs : Nat) : Int) := by
  by_cases h : b = 0
  · subst h
    rw [gcd.eq_def]
    simp [Int.natAbs_of_nonneg ha]
  · have h1 : 0 ≤ Int.tmod a b := Int.tmod_nonneg b ha
    have hrec := gcd_eq_natGcd b (Int.tmod a b) hb h1
    rw [gcd.eq_def, dif_neg h, hrec, natAbs_tmod, ← Nat.gcd_rec]
termination_by b.natAbs
decreasing_by
  exact natAbs_tmod_lt a b h

theorem gcd_pos (a b : Int) (ha : 0 < a) (hb : 0 < b) : 0 < gcd a b := by
  rw [gcd_eq_natGcd a b (le_of_lt ha) (le_of_lt hb)]
  have : 0 < Nat.gcd b.natAbs a.natAbs :=
    Nat.gcd_pos_of_pos_left _ (Int.natAbs_pos.mpr (ne_of_gt hb))
  exact_mod_cast this

theorem gcd_dvd_fst (a b : Int) (ha : 0 ≤ a) (hb : 0 ≤ b) : gcd a b ∣ a := by
  rw [gcd_eq_natGcd a b ha hb]
  have h1 : Nat.gcd b.natAbs a.natAbs ∣ a.natAbs := Nat.gcd_dvd_right _ _
  have h2 : ((Nat.gcd b.natAbs a.natAbs : Nat) : Int) ∣ ((a.natAbs : Nat) : Int) :=
    Int.natCast_dvd_natCast.mpr h1
  rwa [Int.natAbs_of_nonneg ha] at h2

theorem gcd_dvd_snd (a b : Int) (ha : 0 ≤ a) (hb : 0 ≤ b) : gcd a b ∣ b := by
  rw [gcd_eq_natGcd a b ha hb]
  have h1 : Nat.gcd b.natAbs a.natAbs ∣ b.natAbs := Nat.gcd_dvd_left _ _
  have h2 : ((Nat.gcd b.natAbs a.natAbs : Nat) : Int) ∣ ((b.natAbs : Nat) : Int) :=
    Int.natCast_dvd_natCast.mpr h1
  rwa [Int.natAbs_of_nonneg hb] at h2

theorem lcm_mul_gcd (a b : Int) (ha : 0 < a) (hb : 0 < b) :
    lcm a b * gcd a b = a * b := by
  obtain ⟨c, hc⟩ := gcd_dvd_fst a b (le_of_lt ha) (le_of_lt hb)
  have hgne : gcd a b ≠ 0 := ne_of_gt (gcd_pos a b ha hb)
  have htdiv : Int.tdiv a (gcd a b) = c := by
    have h1 : Int.tdiv (gcd a b * c) (gcd a b) = c := Int.mul_tdiv_cancel_left c hgne
    rwa [← hc] at h1
  rw [lcm, htdiv]
  calc c * b * gcd a b = gcd a b * c * b := by ring
    _ = a * b := by rw [← hc]

/-- C3: `gcd` satisfies the Euclidean recurrence: `gcd(a, 0) = a` and, for
`b ≠ 0`, `gcd(a, b) = gcd(b, a % b)` (C++ `%` is the truncated remainder). -/
theorem C3_gcd_recurrence (a b : Int) (ha : 0 ≤ a) (hb : 0 ≤ b) :
    gcd a 0 = a ∧ (b ≠ 0 → gcd a b = gcd b (Int.tmod a b)) := by
  constructor
  · rw [gcd.eq_def]
    simp
  · intro h
    conv_lhs => rw [gcd.eq_def]
    rw [dif_neg h]

theorem C3_gcd_recurrence_witness :
    gcd 12 0 = 12 ∧ ((8 : Int) ≠ 0 → gcd 12 8 = gcd 8 (Int.tmod 12 8)) :=
  C3_gcd_recurrence 12 8 (by decide) (by decide)

/-- C4: for positive `a` and `b`, `lcm(a, b) * gcd(a, b) = a * b`, with
`lcm` computed as `(a / gcd(a, b)) * b`; in exact integer arithmetic the
product identity holds. -/
theorem C4_lcm_gcd_mul (a b : Int) (ha : 0 < a) (hb : 0 < b) :
    lcm a b * gcd a b = a * b :=
  lcm_mul_gcd a b ha hb

theorem C4_lcm_gcd_mul_witness : lcm 12 8 * gcd 12 8 = 12 * 8 :=
  C4_lcm_gcd_mul 12 8 (by decide) (by decide)

/-- C9: the `gcd` recursion is well-founded on non-negative inputs: for
`b > 0` the next second argument `a % b` is non-negative and strictly
smaller than `b`, and the recursion reaches its base case within any fuel
exceeding `|b|`, as `gcdFuel` certifies. -/
theorem C9_gcd_terminates (a b : Int) (n : Nat) (ha : 0 ≤ a) (hb : 0 ≤ b)
    (hn : b.natAbs < n) :
    (0 < b → 0 ≤ Int.tmod a b ∧ Int.tmod a b < b)
    ∧ gcdFuel n a b = some (gcd a b) := by
  constructor
  · intro hbpos
    exact ⟨Int.tmod_nonneg b ha, Int.tmod_lt_of_pos a hbpos⟩
  · clear ha hb
    induction n generalizing a b with
    | zero => exact absurd hn (Nat.not_lt_zero _)
    | succ n ih =>
      by_cases h : b = 0
      · subst h
        rw [gcd.eq_def]
        simp [gcdFuel]
      · have hlt : (Int.tmod a b).natAbs < b.natAbs := natAbs_tmod_lt a b h
        have hrec := ih b (Int.tmod a b) (Nat.lt_of_lt_of_le hlt (Nat.lt_succ_iff.mp hn))
        have hab : gcd a b = gcd b (Int.tmod a b) := by
          conv_lhs => rw [gcd.eq_def]
          rw [dif_neg h]
        rw [gcdFuel, if_neg h, hrec, hab]

theorem C9_gcd_terminates_witness :
    ((0 : Int) < 4 → 0 ≤ Int.tmod 10 4 ∧ Int.tmod 10 4 < 4)
    ∧ gcdFuel 5 10 4 = some (gcd 10 4) :=
  C9_gcd_terminates 10 4 5 (by decide) (by decide) (by decide)

/-- C10: the evaluation order `(a / gcd(a, b)) * b` keeps every intermediate
value (`gcd(a, b)`, the quotient `a / gcd(a, b)`, the factor `b`, and the
result) at most the mathematical `lcm(a, b)`, which the result equals; it
also equals the naive `(a * b) / gcd(a, b)` in exact arithmetic. -/
theorem C10_lcm_eval_order (a b : Int) (ha : 0 < a) (hb : 0 < b) :
    lcm a b = ((Int.lcm a b : Nat) : Int)
    ∧ gcd a b ≤ lcm a b
    ∧ Int.tdiv a (gcd a b) ≤ lcm a b
    ∧ b ≤ lcm a b
    ∧ lcm a b = Int.tdiv (a * b) (gcd a b) := by
  obtain ⟨c, hc⟩ := gcd_dvd_fst a b (le_of_lt ha) (le_of_lt hb)
  have hgpos : 0 < gcd a b := gcd_pos a b ha hb
  have hgne : gcd a b ≠ 0 := ne_of_gt hgpos
  have htdiv : Int.tdiv a (gcd a b) = c := by
    have h1 : Int.tdiv (gcd a b * c) (gcd a b) = c := Int.mul_tdiv_cancel_left c hgne
    rwa [← hc] at h1
  have hcpos : 0 < c := by
    rcases mul_pos_iff.mp (hc ▸ ha) with ⟨_, h2⟩ | ⟨h1, _⟩
    · exact h2
    · exact absurd hgpos (not_lt.mpr (le_of_lt h1))
  have hlcm : lcm a b = c * b := by rw [lcm, htdiv]
  have hmul : lcm a b * gcd a b = a * b := lcm_mul_gcd a b ha hb
  have hgb : gcd a b ≤ b := Int.le_of_dvd hb (gcd_dvd_snd a b (le_of_lt ha) (le_of_lt hb))
  have hble : b ≤ lcm a b := by
    rw [hlcm]
    exact le_mul_of_one_le_left (le_of_lt hb) hcpos
  have hcle : Int.tdiv a (gcd a b) ≤ lcm a b := by
    rw [htdiv, hlcm]
    exact le_mul_of_one_le_right (le_of_lt hcpos) hb
  have hcast : lcm a b = ((Int.lcm a b : Nat) : Int) := by
    have h2 : ((Int.gcd a b * Int.lcm a b : Nat) : Int) = a * b := by
      rw [Int.gcd_mul_lcm, Int.natAbs_of_nonneg (le_of_lt (mul_pos ha hb))]
    have hg : gcd a b = ((Int.gcd a b : Nat) : Int) := by
      rw [gcd_eq_natGcd a b (le_of_lt ha) (le_of_lt hb), Int.gcd, Nat.gcd_comm]
    push_cast at h2
    apply mul_right_cancel₀ hgne
    rw [hmul, ← h2, hg]
    ring
  refine ⟨hcast, le_trans hgb hble, hcle, hble, ?_⟩
  have : a * b = gcd a b * lcm a b := by rw [← hmul]; ring
  rw [this]
  exact (Int.mul_tdiv_cancel_left _ hgne).symm

theorem C10_lcm_eval_order_witness :
    lcm 12 8 = ((Int.lcm 12 8 : Nat) : Int)
    ∧ gcd 12 8 ≤ lcm 12 8
    ∧ Int.tdiv 12 (gcd 12 8) ≤ lcm 12 8
    ∧ (8 : Int) ≤ lcm 12 8
    ∧ lcm 12 8 = Int.tdiv (12 * 8) (gcd 12 8) :=
  C10_lcm_eval_order 12 8 (by decide) (by decide)

/-- C5: `randInt(l, r)` always returns a value inside the caller-given
inclusive range `[l, r]`, whatever the underlying generator draw. -/
theorem C5_randInt_range (u : Nat) (l r : Int) (h : l ≤ r) :
    l ≤ randInt u l r ∧ randInt u l r ≤ r := by
  unfold randInt
  have hn : 0 < (r - l + 1).toNat := by omega
  have hmod : u % (r - l + 1).toNat < (r - l + 1).toNat := Nat.mod_lt _ hn
  omega

theorem C5_randInt_range_witness :
    (2 : Int) ≤ randInt 12 2 5 ∧ randInt 12 2 5 ≤ 5 :=
  C5_randInt_range 12 2 5 (by decide)

/-- C6: on every run, whatever the build flag, `main` calls `solve` exactly
once: the loop counter `t` is the literal 1 and the `cin >> t` line is
commented out. -/
theorem C6_solve_called_once (judge : Bool) :
    ∃ res : MainResult, mainRun judge = some res ∧ res.solveCalls = 1 :=
  ⟨_, rfl, rfl⟩

/-- C7: on every normal completion the exit status is 0 — `main` has a
single return path, `return 0;` — and with `solve` left empty no output is
produced. -/
theorem C7_exit_status_zero (judge : Bool) :
    ∃ res : MainResult, mainRun judge = some res
      ∧ res.exitStatus = 0 ∧ res.stdout = [] :=
  ⟨_, rfl, rfl, rfl⟩

/-- C8: in a judge build (`ONLINE_JUDGE` defined) the `debug(x)` macro
expands to nothing: whatever the argument, the standard error stream is
left unchanged. -/
theorem C8_debug_judge_noop (label rendered : String) (stderrLines : List String) :
    debugExpand true label rendered stderrLines = stderrLines :=
  rfl

end Template
